import Mathlib

/-!
# Verification of the STL-simulation containers (`src/STL_Simulation.py`)

This file gives a shallow embedding of the two core containers of the
repository — the doubly-linked `List` class (the spec's *LinkedSequence*,
embedded here as `StlList` to avoid clashing with Lean's `List`) and the
`PriorityQueue` class together with the `heapq` library routines it calls —
and proves or refutes the specification's claims about them.

Conventions of the embedding:
* Python objects live in an arena: a node store `Nat → Option (ListNode T)`
  together with a `fresh` allocation counter.  Object identity (`is`) is
  index equality.  Attribute assignment is a pointwise store update.
* Methods that can raise return `Except ContainerError _`.  The
  `IndexError("... is empty")` raised by the Python code on an empty
  container is the spec's `EmptyContainer` error and is embedded as
  `ContainerError.emptyContainer`.  Dereferencing a null pointer (an
  `AttributeError` in Python, unreachable while the representation
  invariant holds) is embedded as `ContainerError.corruptState`.
* Python values handled by `PriorityQueue` are embedded as `PyVal`:
  integers, strings (as lists of code points) and tuples (as nested pairs,
  which is all the code builds).  Floats take the same code path as
  integers and are omitted.  Python `<` on these values is `pyLt`; a
  comparison between values of different shapes raises `TypeError` in
  Python and is never exercised by any claim, so `pyLt` returns `false`
  there.
* Python `while` loops are embedded with an explicit fuel argument that is
  always sufficient for the loop's actual iteration count, so the
  out-of-fuel branch is unreachable at every call site used below.
-/

set_option autoImplicit false

namespace STLSim

universe u

variable {T : Type u} {α : Type u}

/-! ## Errors -/

/-- The spec's error taxonomy: `EmptyContainer` is the only intrinsic error
(`IndexError("... is empty")` in the code); `corruptState` marks null-pointer
dereferences that are unreachable from valid states. -/
inductive ContainerError : Type where
  | emptyContainer : ContainerError
  | corruptState : ContainerError
deriving DecidableEq

/-! ## Python values for `PriorityQueue`

`PriorityQueue.push` stores either the value itself, its numeric negation
`-value`, or the tuple `(value, -1)`, so the value universe needed is
integers, strings and pairs. -/

/-- Embedded Python values: `int`, `str` (list of code points), and 2-tuples. -/
inductive PyVal : Type where
  | int : Int → PyVal
  | str : List Nat → PyVal
  | pair : PyVal → PyVal → PyVal
deriving DecidableEq

/-- Python's `isinstance(value, (int, float))` test used by the code. -/
def isNumeric : PyVal → Bool
  | .int _ => true
  | _ => false

/-- Python unary minus as applied by the code (only ever applied to values
that passed the `isinstance` test). -/
def pyNeg : PyVal → PyVal
  | .int n => .int (-n)
  | v => v

/-- Python `<` on strings: code-point lexicographic, a strict prefix is
smaller. -/
def strLt : List Nat → List Nat → Bool
  | [], [] => false
  | [], _ :: _ => true
  | _ :: _, [] => false
  | a :: as, b :: bs => if a < b then true else if b < a then false else strLt as bs

/-- Python `<` on the embedded values: numeric comparison on ints,
lexicographic on strings, lexicographic (first unequal component) on
tuples.  Mixed-shape comparisons raise `TypeError` in Python and are never
reached by the claims; they are mapped to `false`. -/
def pyLt : PyVal → PyVal → Bool
  | .int a, .int b => a < b
  | .str a, .str b => strLt a b
  | .pair a1 a2, .pair b1 b2 => if a1 = b1 then pyLt a2 b2 else pyLt a1 b1
  | _, _ => false

/-! ## The `heapq` library

`PriorityQueue` delegates heap maintenance to Python's `heapq` module.
`heapq` is generic code that orders elements with `<`; it is embedded
generically over a boolean comparison `lt`.  The translation follows the
CPython implementation of `heappush`, `heappop`, `_siftdown` and
`_siftup`. -/

/-- `_siftdown(heap, startpos, pos)` loop body.  `newitem = heap[pos]` has
already been read by `siftdown`; the loop walks `pos` toward `startpos`
halving it each round, so `pos + 1` fuel always suffices. -/
def siftdownAux (lt : α → α → Bool) (startpos : Nat) :
    Nat → List α → Nat → α → List α
  | 0, heap, pos, newitem => heap.set pos newitem
  | fuel + 1, heap, pos, newitem =>
    if startpos < pos then
      let parentpos := (pos - 1) / 2
      match heap[parentpos]? with
      | some parent =>
        if lt newitem parent then
          siftdownAux lt startpos fuel (heap.set pos parent) parentpos newitem
        else
          heap.set pos newitem
      | none => heap.set pos newitem
    else
      heap.set pos newitem

/-- CPython `heapq._siftdown(heap, startpos, pos)`. -/
def siftdown (lt : α → α → Bool) (heap : List α) (startpos pos : Nat) : List α :=
  match heap[pos]? with
  | some newitem => siftdownAux lt startpos (pos + 1) heap pos newitem
  | none => heap

/-- The `while childpos < endpos` loop of CPython `heapq._siftup`; returns
the updated heap together with the final `pos`.  `pos` at least doubles
each round, so `endpos` fuel always suffices. -/
def siftupLoop (lt : α → α → Bool) (endpos : Nat) :
    Nat → List α → Nat → List α × Nat
  | 0, heap, pos => (heap, pos)
  | fuel + 1, heap, pos =>
    let childpos := 2 * pos + 1
    if childpos < endpos then
      let rightpos := childpos + 1
      let childpos2 :=
        if rightpos < endpos then
          match heap[childpos]?, heap[rightpos]? with
          | some c, some r => if ! lt c r then rightpos else childpos
          | _, _ => childpos
        else childpos
      match heap[childpos2]? with
      | some child => siftupLoop lt endpos fuel (heap.set pos child) childpos2
      | none => (heap, pos)
    else
      (heap, pos)

/-- CPython `heapq._siftup(heap, pos)`: bubble the hole at `pos` down to a
leaf, park `newitem` there and sift it back down toward `pos`. -/
def siftup (lt : α → α → Bool) (heap : List α) (pos : Nat) : List α :=
  let endpos := heap.length
  match heap[pos]? with
  | none => heap
  | some newitem =>
    let hp := siftupLoop lt endpos endpos heap pos
    siftdown lt (hp.1.set hp.2 newitem) pos hp.2

/-- CPython `heapq.heappush(heap, item)`: append, then sift down from the
root to the appended position. -/
def heappush (lt : α → α → Bool) (heap : List α) (item : α) : List α :=
  let h1 := heap ++ [item]
  siftdown lt h1 0 (h1.length - 1)

/-- CPython `heapq.heappop(heap)`: pop the last element; if the heap is
still non-empty, take the root as the return value, move the popped last
element to the root and sift it up.  `none` only on an empty heap (Python
raises `IndexError` there; every caller below guards against it). -/
def heappop (lt : α → α → Bool) (heap : List α) : Option (α × List α) :=
  match heap.getLast?, heap.dropLast with
  | none, _ => none
  | some lastelt, rest =>
    match rest with
    | [] => some (lastelt, [])
    | r0 :: rtl => some (r0, siftup lt (lastelt :: rtl) 0)

/-! ## The `PriorityQueue` class -/

/-- The `PriorityQueue` class state: `_data` (the heap list), `_reverse`
(which is `compare is None` at construction) and the stored `_compare`
function (which the code never calls again). -/
structure PriorityQueue : Type where
  data : List PyVal
  reverse : Bool
  compare : Option (PyVal → PyVal → Bool)

namespace PriorityQueue

/-- `PriorityQueue.size`. -/
def size (q : PriorityQueue) : Nat := q.data.length

/-- `PriorityQueue.empty`. -/
def isEmpty (q : PriorityQueue) : Bool := q.data.length == 0

/-- `PriorityQueue.push`: in default (`_reverse`) mode, numeric values are
negated and every other value `v` is stored as the tuple `(v, -1)`; with a
custom comparator the raw value is pushed.  Either way the element is
inserted with `heapq.heappush`, which orders by `<` (`pyLt`). -/
def push (q : PriorityQueue) (value : PyVal) : PriorityQueue :=
  if q.reverse then
    let stored := if isNumeric value then pyNeg value else .pair value (.int (-1))
    { q with data := heappush pyLt q.data stored }
  else
    { q with data := heappush pyLt q.data value }

/-- The value transformation applied by `pop` and `top` to what is read
from the heap: negate numeric values in default mode, otherwise return the
stored value as is. -/
def unstore (q : PriorityQueue) (value : PyVal) : PyVal :=
  if q.reverse && isNumeric value then pyNeg value else value

/-- `PriorityQueue.pop`: raise on empty, else `heapq.heappop` and undo the
numeric negation when in default mode. -/
def pop (q : PriorityQueue) : Except ContainerError (PyVal × PriorityQueue) :=
  if q.data.length == 0 then
    .error .emptyContainer
  else
    match heappop pyLt q.data with
    | none => .error .corruptState
    | some (value, rest) => .ok (q.unstore value, { q with data := rest })

/-- `PriorityQueue.top`: raise on empty, else read `_data[0]` (without any
mutation) and undo the numeric negation when in default mode. -/
def top (q : PriorityQueue) : Except ContainerError PyVal :=
  match q.data with
  | [] => .error .emptyContainer
  | value :: _ => .ok (q.unstore value)

/-- `PriorityQueue.clear`. -/
def clear (q : PriorityQueue) : PriorityQueue := { q with data := [] }

/-- The `PriorityQueue(initial_elements, compare)` constructor: start from
an empty heap with `_reverse = (compare is None)` and `push` each initial
element in order. -/
def make (initial : List PyVal) (compare : Option (PyVal → PyVal → Bool)) :
    PriorityQueue :=
  initial.foldl (fun q v => q.push v) ⟨[], compare.isNone, compare⟩

/-- Pop `fuel` times, collecting the returned values until an error stops
the run (used to state concrete pop-sequence facts). -/
def popList : Nat → PriorityQueue → List PyVal
  | 0, _ => []
  | fuel + 1, q =>
    match q.pop with
    | .error _ => []
    | .ok (v, q') => v :: popList fuel q'

end PriorityQueue

/-! ## The doubly-linked `List` class (the spec's *LinkedSequence*)

Nodes live in an arena `store : Nat → Option (ListNode T)` with a `fresh`
allocation counter; `head`, `tail`, `prev` and `next` are optional node
indices (`none` is Python `None`), and Python's `is` on nodes is index
equality. -/

/-- The `ListNode` class: one datum and the `next`/`prev` links. -/
structure ListNode (T : Type u) : Type u where
  data : T
  next : Option Nat
  prev : Option Nat

/-- Pointwise store update: the embedding of assigning to an attribute of
the node at index `i` (or of allocating a node there). -/
def updStore (st : Nat → Option (ListNode T)) (i : Nat) (nd : ListNode T) :
    Nat → Option (ListNode T) :=
  fun j => if j = i then some nd else st j

/-- The `List` class state (named `StlList` because `List` is taken in
Lean): `_head`, `_tail`, `_size`, plus the node arena and its allocation
counter. -/
structure StlList (T : Type u) : Type u where
  store : Nat → Option (ListNode T)
  fresh : Nat
  head : Option Nat
  tail : Option Nat
  size : Nat

namespace StlList

/-- A freshly constructed empty `List()`. -/
def empty : StlList T := ⟨fun _ => none, 0, none, none, 0⟩

/-- `List.empty()`. -/
def isEmpty (s : StlList T) : Bool := s.size == 0

/-- `List.push_front(value)`: allocate a node; if the list is empty it
becomes both head and tail, otherwise it is linked before the current head
(`new_node.next = head; head.prev = new_node; head = new_node`).  The
unreachable fallback (non-zero `_size` with a null `_head`, an
`AttributeError` in Python) returns the state unchanged. -/
def push_front (s : StlList T) (value : T) : StlList T :=
  let n := s.fresh
  if s.size = 0 then
    { store := updStore s.store n ⟨value, none, none⟩, fresh := n + 1,
      head := some n, tail := some n, size := s.size + 1 }
  else
    match s.head with
    | none => s
    | some h =>
      match s.store h with
      | none => s
      | some hn =>
        let store1 := updStore s.store n ⟨value, some h, none⟩
        let store2 := updStore store1 h { hn with prev := some n }
        { store := store2, fresh := n + 1,
          head := some n, tail := s.tail, size := s.size + 1 }

/-- `List.push_back(value)`: symmetric to `push_front`
(`tail.next = new_node; new_node.prev = tail; tail = new_node`). -/
def push_back (s : StlList T) (value : T) : StlList T :=
  let n := s.fresh
  if s.size = 0 then
    { store := updStore s.store n ⟨value, none, none⟩, fresh := n + 1,
      head := some n, tail := some n, size := s.size + 1 }
  else
    match s.tail with
    | none => s
    | some t =>
      match s.store t with
      | none => s
      | some tn =>
        let store1 := updStore s.store t { tn with next := some n }
        let store2 := updStore store1 n ⟨value, none, some t⟩
        { store := store2, fresh := n + 1,
          head := s.head, tail := some n, size := s.size + 1 }

/-- `List.pop_front()`: raise `IndexError` (`EmptyContainer`) on an empty
list; otherwise capture `head.data`; if `head is tail` null both pointers,
else advance `head` and null the new head's `prev`; decrement `_size`.
Null-pointer dereferences (unreachable from valid states) are reported as
`corruptState`. -/
def pop_front (s : StlList T) : Except ContainerError (T × StlList T) :=
  if s.size = 0 then
    .error .emptyContainer
  else
    match s.head with
    | none => .error .corruptState
    | some h =>
      match s.store h with
      | none => .error .corruptState
      | some hn =>
        let value := hn.data
        if s.head = s.tail then
          .ok (value, { s with head := none, tail := none, size := s.size - 1 })
        else
          match hn.next with
          | none => .error .corruptState
          | some h2 =>
            match s.store h2 with
            | none => .error .corruptState
            | some h2n =>
              let store2 := updStore s.store h2 { h2n with prev := none }
              .ok (value,
                { s with store := store2, head := some h2, size := s.size - 1 })

/-- `List.pop_back()`: symmetric to `pop_front` using `tail`/`prev`. -/
def pop_back (s : StlList T) : Except ContainerError (T × StlList T) :=
  if s.size = 0 then
    .error .emptyContainer
  else
    match s.tail with
    | none => .error .corruptState
    | some t =>
      match s.store t with
      | none => .error .corruptState
      | some tn =>
        let value := tn.data
        if s.head = s.tail then
          .ok (value, { s with head := none, tail := none, size := s.size - 1 })
        else
          match tn.prev with
          | none => .error .corruptState
          | some t2 =>
            match s.store t2 with
            | none => .error .corruptState
            | some t2n =>
              let store2 := updStore s.store t2 { t2n with next := none }
              .ok (value,
                { s with store := store2, tail := some t2, size := s.size - 1 })

/-- `List.front()`: raise on empty, else return `head.data`. -/
def front (s : StlList T) : Except ContainerError T :=
  if s.size = 0 then
    .error .emptyContainer
  else
    match s.head with
    | none => .error .corruptState
    | some h =>
      match s.store h with
      | none => .error .corruptState
      | some hn => .ok hn.data

/-- `List.back()`: raise on empty, else return `tail.data`. -/
def back (s : StlList T) : Except ContainerError T :=
  if s.size = 0 then
    .error .emptyContainer
  else
    match s.tail with
    | none => .error .corruptState
    | some t =>
      match s.store t with
      | none => .error .corruptState
      | some tn => .ok tn.data

/-- `List.clear()`: null `_head` and `_tail` and zero `_size` (the nodes
themselves are left to garbage collection). -/
def clear (s : StlList T) : StlList T :=
  { s with head := none, tail := none, size := 0 }

/-- The `List(initial_elements)` constructor: `push_back` each element of
the initial sequence in order, starting from the empty list. -/
def ofList (l : List T) : StlList T :=
  l.foldl (fun s v => s.push_back v) empty

/-- The `while current:` walk of `List.__iter__`, collecting `data`
fields.  The fuel is the number of allocated nodes, which bounds the
length of any duplicate-free chain; Python's loop is unbounded and would
diverge only on a cyclic (invalid) structure. -/
def iterAux (st : Nat → Option (ListNode T)) : Option Nat → Nat → List T
  | none, _ => []
  | some _, 0 => []
  | some i, fuel + 1 =>
    match st i with
    | none => []
    | some nd => nd.data :: iterAux st nd.next fuel

/-- `List.__iter__`: the front-to-back traversal of the element values,
walking `next` links from `_head`. -/
def toSeq (s : StlList T) : List T := iterAux s.store s.head s.fresh

/-- The same walk collecting node indices instead of values (used to state
which nodes are reachable from `head`). -/
def idxAux (st : Nat → Option (ListNode T)) : Option Nat → Nat → List Nat
  | none, _ => []
  | some _, 0 => []
  | some i, fuel + 1 =>
    match st i with
    | none => []
    | some nd => i :: idxAux st nd.next fuel

/-- The indices of the nodes reachable from `_head` by following `next`. -/
def reachIdx (s : StlList T) : List Nat := idxAux s.store s.head s.fresh

/-- The data fields of a list of node indices. -/
def chainData (st : Nat → Option (ListNode T)) (is : List Nat) : List T :=
  is.filterMap fun i => (st i).map fun nd => nd.data

/-! ### The representation invariant

`Dlseg st p is q` says that the indices `is` form a doubly-linked segment
in the store `st`: each index holds a node, the first node's `prev` is
`p`, consecutive nodes point at each other symmetrically, and the last
node's `next` is `q`. -/

/-- Doubly-linked segment predicate. -/
def Dlseg (st : Nat → Option (ListNode T)) : Option Nat → List Nat → Option Nat → Prop
  | _, [], _ => True
  | p, i :: rest, q =>
    ∃ nd, st i = some nd ∧ nd.prev = p ∧
      nd.next = (match rest with | [] => q | j :: _ => some j) ∧
      Dlseg st (some i) rest q

/-- The `prev` pointer that the node appended after segment `is` (whose
own first `prev` is `p`) must carry. -/
def backPtr (p : Option Nat) (is : List Nat) : Option Nat :=
  match is.getLast? with
  | none => p
  | some t => some t

/-- The representation invariant of the `List` class, relating a state to
the list `is` of its node indices in front-to-back order. -/
def Inv (s : StlList T) (is : List Nat) : Prop :=
  Dlseg s.store none is none ∧ s.head = is.head? ∧ s.tail = is.getLast? ∧
    s.size = is.length ∧ (∀ i ∈ is, i < s.fresh) ∧ is.Nodup

theorem dlseg_nil {st : Nat → Option (ListNode T)} {p q : Option Nat} :
    Dlseg st p [] q := trivial

theorem dlseg_cons {st : Nat → Option (ListNode T)} {p q : Option Nat} {i : Nat}
    {rest : List Nat} :
    Dlseg st p (i :: rest) q ↔
      ∃ nd, st i = some nd ∧ nd.prev = p ∧
        nd.next = (match rest with | [] => q | j :: _ => some j) ∧
        Dlseg st (some i) rest q := Iff.rfl

/-- A store update outside the segment does not disturb it. -/
theorem dlseg_updStore {st : Nat → Option (ListNode T)} {q : Option Nat}
    {j : Nat} {nd : ListNode T} :
    ∀ {is : List Nat} {p : Option Nat}, j ∉ is → Dlseg st p is q →
      Dlseg (updStore st j nd) p is q := by
  intro is
  induction is with
  | nil => intro p _ _; exact dlseg_nil
  | cons i rest ih =>
    intro p hj hseg
    obtain ⟨nd0, hst, hprev, hnext, hrest⟩ := hseg
    refine ⟨nd0, ?_, hprev, hnext, ih (fun hm => hj (List.mem_cons_of_mem _ hm)) hrest⟩
    have hne : i ≠ j := fun h => hj (h ▸ List.mem_cons_self i rest)
    simpa [updStore, hne] using hst

/-- Decomposition of a doubly-linked segment at its last node. -/
theorem dlseg_snoc {st : Nat → Option (ListNode T)} {q : Option Nat} {n : Nat} :
    ∀ {is : List Nat} {p : Option Nat},
      Dlseg st p (is ++ [n]) q ↔
        ∃ nd, st n = some nd ∧ nd.prev = backPtr p is ∧ nd.next = q ∧
          Dlseg st p is (some n) := by
  intro is
  induction is with
  | nil =>
    intro p
    constructor
    · rintro ⟨nd, hst, hprev, hnext, -⟩
      exact ⟨nd, hst, hprev, hnext, dlseg_nil⟩
    · rintro ⟨nd, hst, hprev, hnext, -⟩
      exact ⟨nd, hst, hprev, hnext, dlseg_nil⟩
  | cons i rest ih =>
    intro p
    constructor
    · rintro ⟨nd, hst, hprev, hnext, hrest⟩
      obtain ⟨nd2, hst2, hprev2, hnext2, hseg2⟩ := ih.mp hrest
      refine ⟨nd2, hst2, ?_, hnext2, nd, hst, hprev, ?_, hseg2⟩
      · cases rest with
        | nil => simpa [backPtr] using hprev2
        | cons r rtl => simpa [backPtr] using hprev2
      · cases rest with
        | nil => simpa using hnext
        | cons r rtl => simpa using hnext
    · rintro ⟨nd2, hst2, hprev2, hnext2, nd, hst, hprev, hnext, hseg⟩
      refine ⟨nd, hst, hprev, ?_, ih.mpr ⟨nd2, hst2, ?_, hnext2, hseg⟩⟩
      · cases rest with
        | nil => simpa using hnext
        | cons r rtl => simpa using hnext
      · cases rest with
        | nil => simpa [backPtr] using hprev2
        | cons r rtl => simpa [backPtr] using hprev2

/-- A duplicate-free list of naturals below `n` has at most `n` elements
(so the `fresh` counter bounds the chain length and is sufficient
traversal fuel). -/
theorem nodup_bound {is : List Nat} {n : Nat} (h : ∀ i ∈ is, i < n)
    (hd : is.Nodup) : is.length ≤ n := by
  classical
  have h1 : is.toFinset ⊆ Finset.range n := by
    intro i hi
    simpa using h i (by simpa using hi)
  have h2 := Finset.card_le_card h1
  simpa [List.toFinset_card_of_nodup hd, Finset.card_range] using h2

/-- With enough fuel, the index walk from the head of a doubly-linked
segment visits exactly the segment. -/
theorem idxAux_eval {st : Nat → Option (ListNode T)} :
    ∀ {is : List Nat} {p : Option Nat} {fuel : Nat}, Dlseg st p is none →
      is.length ≤ fuel → idxAux st is.head? fuel = is := by
  intro is
  induction is with
  | nil => intro p fuel _ _; cases fuel <;> rfl
  | cons i rest ih =>
    intro p fuel hseg hfuel
    obtain ⟨nd, hst, -, hnext, hrest⟩ := hseg
    obtain ⟨f, rfl⟩ : ∃ f, fuel = f + 1 := by
      cases fuel with
      | zero => exact absurd hfuel (by simp)
      | succ f => exact ⟨f, rfl⟩
    have hnext2 : nd.next = rest.head? := by
      cases rest with
      | nil => simpa using hnext
      | cons r rtl => simpa using hnext
    have hf : rest.length ≤ f := by simpa using Nat.le_of_succ_le_succ hfuel
    simp only [List.head?_cons, idxAux, hst, hnext2]
    exact congrArg (i :: ·) (ih hrest hf)

/-- With enough fuel, the value walk (`__iter__`) from the head of a
doubly-linked segment yields exactly the segment's data. -/
theorem iterAux_eval {st : Nat → Option (ListNode T)} :
    ∀ {is : List Nat} {p : Option Nat} {fuel : Nat}, Dlseg st p is none →
      is.length ≤ fuel → iterAux st is.head? fuel = chainData st is := by
  intro is
  induction is with
  | nil => intro p fuel _ _; cases fuel <;> rfl
  | cons i rest ih =>
    intro p fuel hseg hfuel
    obtain ⟨nd, hst, -, hnext, hrest⟩ := hseg
    obtain ⟨f, rfl⟩ : ∃ f, fuel = f + 1 := by
      cases fuel with
      | zero => exact absurd hfuel (by simp)
      | succ f => exact ⟨f, rfl⟩
    have hnext2 : nd.next = rest.head? := by
      cases rest with
      | nil => simpa using hnext
      | cons r rtl => simpa using hnext
    have hf : rest.length ≤ f := by simpa using Nat.le_of_succ_le_succ hfuel
    simp only [List.head?_cons, iterAux, hst, hnext2, chainData, List.filterMap_cons,
      Option.map_some]
    exact congrArg (nd.data :: ·) (ih hrest hf)

/-- On a doubly-linked segment every index lookup succeeds, so the data
list has the same length as the index list. -/
theorem chainData_length {st : Nat → Option (ListNode T)} {q : Option Nat} :
    ∀ {is : List Nat} {p : Option Nat}, Dlseg st p is q →
      (chainData st is).length = is.length := by
  intro is
  induction is with
  | nil => intro p _; rfl
  | cons i rest ih =>
    intro p hseg
    obtain ⟨nd, hst, -, -, hrest⟩ := hseg
    simp [chainData, List.filterMap_cons, hst]
    simpa [chainData] using ih hrest

/-- A store update that does not change the `data` field of the updated
node leaves `chainData` unchanged on every index list. -/
theorem chainData_updStore_data {st : Nat → Option (ListNode T)} {j : Nat}
    {nd' : ListNode T} (h : (st j).map (fun nd => nd.data) = some nd'.data) :
    ∀ is : List Nat, chainData (updStore st j nd') is = chainData st is := by
  intro is
  refine List.filterMap_congr fun i _ => ?_
  by_cases hij : i = j
  · subst hij
    simp [updStore, h]
  · simp [updStore, hij]

/-- A store update outside an index list leaves `chainData` unchanged on it. -/
theorem chainData_updStore_notmem {st : Nat → Option (ListNode T)} {j : Nat}
    {nd' : ListNode T} :
    ∀ {is : List Nat}, j ∉ is → chainData (updStore st j nd') is = chainData st is := by
  intro is hj
  refine List.filterMap_congr fun i hi => ?_
  have hij : i ≠ j := fun h => hj (h ▸ hi)
  simp [updStore, hij]

/-- Under the representation invariant the traversal is the chain's data. -/
theorem toSeq_eq_chainData {s : StlList T} {is : List Nat} (h : Inv s is) :
    s.toSeq = chainData s.store is := by
  obtain ⟨hseg, hhead, -, -, hmem, hnodup⟩ := h
  have hlen : is.length ≤ s.fresh := nodup_bound hmem hnodup
  simpa [toSeq, hhead] using iterAux_eval hseg hlen

/-- Under the representation invariant the reachable-index walk is the chain. -/
theorem reachIdx_eq {s : StlList T} {is : List Nat} (h : Inv s is) :
    s.reachIdx = is := by
  obtain ⟨hseg, hhead, -, -, hmem, hnodup⟩ := h
  have hlen : is.length ≤ s.fresh := nodup_bound hmem hnodup
  simpa [reachIdx, hhead] using idxAux_eval hseg hlen

/-- Under the representation invariant the traversal has length `size`. -/
theorem toSeq_length {s : StlList T} {is : List Nat} (h : Inv s is) :
    s.toSeq.length = s.size := by
  rw [toSeq_eq_chainData h, chainData_length h.1, h.2.2.2.1]

/-! ### Invariant preservation -/

/-- A freshly constructed empty list satisfies the invariant with the
empty chain. -/
theorem inv_empty : Inv (empty : StlList T) [] :=
  ⟨dlseg_nil, rfl, rfl, rfl, by simp, by simp⟩

/-- `clear` reestablishes the invariant with the empty chain from any
state whatsoever. -/
theorem inv_clear (s : StlList T) : Inv s.clear [] :=
  ⟨dlseg_nil, rfl, rfl, rfl, by simp, by simp⟩

/-- `push_front` preserves the invariant; the fresh node is prepended to
the chain. -/
theorem inv_push_front {s : StlList T} {is : List Nat} (v : T) (h : Inv s is) :
    Inv (s.push_front v) (s.fresh :: is) := by
  obtain ⟨hseg, hhead, htail, hsize, hmem, hnodup⟩ := h
  cases is with
  | nil =>
    have hs0 : s.size = 0 := by simpa using hsize
    simp only [push_front, if_pos hs0]
    exact ⟨⟨⟨v, none, none⟩, by simp [updStore], rfl, rfl, dlseg_nil⟩, rfl, rfl,
      by simp [hs0], by simp, by simp⟩
  | cons i rest =>
    have hs0 : ¬s.size = 0 := by simp [hsize]
    obtain ⟨nd, hst, hprev, hnext, hrest⟩ := hseg
    have hhead2 : s.head = some i := by simpa using hhead
    have hifr : i < s.fresh := hmem i (List.mem_cons_self i rest)
    have hne : i ≠ s.fresh := Nat.ne_of_lt hifr
    have hinotmem : i ∉ rest := (List.nodup_cons.mp hnodup).1
    have hfrnotmem : s.fresh ∉ rest := fun hm =>
      Nat.lt_irrefl s.fresh (hmem s.fresh (List.mem_cons_of_mem _ hm))
    simp only [push_front, if_neg hs0, hhead2, hst]
    refine ⟨?_, rfl, ?_, ?_, ?_, ?_⟩
    · refine ⟨⟨v, some i, none⟩, ?_, rfl, rfl, ?_⟩
      · simp [updStore, hne.symm]
      · refine ⟨{ nd with prev := some s.fresh }, by simp [updStore], rfl,
          by simpa using hnext, ?_⟩
        exact dlseg_updStore hinotmem (dlseg_updStore hfrnotmem hrest)
    · simpa [List.getLast?_cons_cons] using htail
    · simpa using hsize
    · intro j hj
      rcases List.mem_cons.mp hj with rfl | hj2
      · exact Nat.lt_succ_self _
      · exact Nat.lt_succ_of_lt (hmem j hj2)
    · exact List.nodup_cons.mpr
        ⟨fun hm => Nat.lt_irrefl s.fresh (hmem s.fresh hm), hnodup⟩

/-- `push_back` preserves the invariant; the fresh node is appended to
the chain. -/
theorem inv_push_back {s : StlList T} {is : List Nat} (v : T) (h : Inv s is) :
    Inv (s.push_back v) (is ++ [s.fresh]) := by
  obtain ⟨hseg, hhead, htail, hsize, hmem, hnodup⟩ := h
  rcases hisnil : is with _ | ⟨i0, rest0⟩
  · subst hisnil
    have hs0 : s.size = 0 := by simpa using hsize
    simp only [push_back, if_pos hs0, List.nil_append]
    exact ⟨⟨⟨v, none, none⟩, by simp [updStore], rfl, rfl, dlseg_nil⟩, rfl, rfl,
      by simp [hs0], by simp, by simp⟩
  · rw [← hisnil]
    have hisne : is ≠ [] := by simp [hisnil]
    have hs0 : ¬s.size = 0 := by simp [hsize, hisnil]
    set t := is.getLast hisne with ht
    have hdec : is.dropLast ++ [t] = is := List.dropLast_append_getLast hisne
    have hlast : is.getLast? = some t := List.getLast?_eq_getLast is hisne
    have htail2 : s.tail = some t := by rw [htail, hlast]
    obtain ⟨tn, hstt, htprev, htnext, hfrontseg⟩ := dlseg_snoc.mp (hdec ▸ hseg)
    have htmem : t ∈ is := hdec ▸ List.mem_append_right _ (List.mem_cons_self t [])
    have htfr : t < s.fresh := hmem t htmem
    have htne : t ≠ s.fresh := Nat.ne_of_lt htfr
    have hnodup2 : (is.dropLast ++ [t]).Nodup := hdec.symm ▸ hnodup
    have htnotmem : t ∉ is.dropLast := fun hm =>
      (List.disjoint_of_nodup_append hnodup2) hm (List.mem_cons_self t [])
    have hfrnotmem : s.fresh ∉ is.dropLast := fun hm =>
      Nat.lt_irrefl s.fresh (hmem s.fresh (hdec ▸ List.mem_append_left _ hm))
    simp only [push_back, if_neg hs0, htail2, hstt]
    refine ⟨?_, ?_, ?_, ?_, ?_, ?_⟩
    · refine dlseg_snoc.mpr ⟨⟨v, none, some t⟩, by simp [updStore], ?_, rfl, ?_⟩
      · simp [backPtr, hlast]
      · rw [← hdec]
        refine dlseg_snoc.mpr ⟨{ tn with next := some s.fresh }, ?_, ?_, rfl, ?_⟩
        · simp [updStore, htne]
        · simpa using htprev
        · exact dlseg_updStore hfrnotmem (dlseg_updStore htnotmem hfrontseg)
    · rw [hhead, hisnil]
      simp
    · simp
    · simp [hsize]
    · intro j hj
      rcases List.mem_append.mp hj with hj2 | hj2
      · exact Nat.lt_succ_of_lt (hmem j hj2)
      · simp at hj2
        simp [hj2]
    · rw [List.nodup_append]
      refine ⟨hnodup, by simp, ?_⟩
      intro j hj hj2
      simp at hj2
      subst hj2
      exact Nat.lt_irrefl s.fresh (hmem _ hj)

/-- `pop_front` on a state whose chain is `i :: rest` succeeds, returns
node `i`'s datum, and reestablishes the invariant on `rest` without
touching any node's datum or, when the list stays non-empty, the tail
pointer. -/
theorem pop_front_ok {s : StlList T} {i : Nat} {rest : List Nat}
    (h : Inv s (i :: rest)) :
    ∃ nd s', s.store i = some nd ∧ s.pop_front = .ok (nd.data, s') ∧
      Inv s' rest ∧ s'.size = s.size - 1 ∧ s'.fresh = s.fresh ∧
      chainData s'.store rest = chainData s.store rest ∧
      (rest ≠ [] → s'.tail = s.tail) := by
  obtain ⟨hseg, hhead, htail, hsize, hmem, hnodup⟩ := h
  obtain ⟨nd, hst, hprev, hnext, hrest⟩ := hseg
  have hhead2 : s.head = some i := by simpa using hhead
  have hs0 : ¬s.size = 0 := by simp [hsize]
  cases rest with
  | nil =>
    have htail2 : s.tail = some i := by simpa using htail
    refine ⟨nd, { s with head := none, tail := none, size := s.size - 1 }, hst, ?_,
      ⟨dlseg_nil, rfl, rfl, by simp [hsize], by simp, by simp⟩, rfl, rfl, rfl, by simp⟩
    simp [pop_front, if_neg hs0, hhead2, hst, htail2]
  | cons j rtl =>
    obtain ⟨ndj, hstj, hprevj, hnextj, hrtl⟩ := hrest
    have hnext2 : nd.next = some j := by simpa using hnext
    have hne2 : (j :: rtl) ≠ ([] : List Nat) := by simp
    have hblast : (j :: rtl).getLast? = some ((j :: rtl).getLast hne2) :=
      List.getLast?_eq_getLast _ hne2
    set t := (j :: rtl).getLast hne2 with ht
    have htail2 : s.tail = some t := by rw [htail, List.getLast?_cons_cons, hblast]
    have htmem : t ∈ j :: rtl := List.getLast_mem hne2
    have hit : i ≠ t := fun hh => (List.nodup_cons.mp hnodup).1 (hh ▸ htmem)
    have hcond : ¬s.head = s.tail := by
      rw [hhead2, htail2]
      simp [hit]
    have hjnotmem : j ∉ rtl := (List.nodup_cons.mp (List.nodup_cons.mp hnodup).2).1
    refine ⟨nd, ⟨updStore s.store j { ndj with prev := none }, s.fresh, some j,
      s.tail, s.size - 1⟩, hst, ?_, ?_, rfl, rfl, ?_, fun _ => rfl⟩
    · simp [pop_front, if_neg hs0, hhead2, hst, htail2, hit, hnext2, hstj]
    · refine ⟨⟨{ ndj with prev := none }, by simp [updStore], rfl,
        by simpa using hnextj, dlseg_updStore hjnotmem hrtl⟩, rfl, ?_, ?_, ?_, ?_⟩
      · simpa [List.getLast?_cons_cons] using htail
      · simp at hsize
        simp [hsize]
      · intro k hk
        exact hmem k (List.mem_cons_of_mem _ hk)
      · exact (List.nodup_cons.mp hnodup).2
    · exact chainData_updStore_data (by simp [hstj]) _

/-- `pop_back` on a state whose chain is `js ++ [t]` succeeds, returns
node `t`'s datum, and reestablishes the invariant on `js` without
touching any node's datum or, when the list stays non-empty, the head
pointer. -/
theorem pop_back_ok {s : StlList T} {js : List Nat} {t : Nat}
    (h : Inv s (js ++ [t])) :
    ∃ nd s', s.store t = some nd ∧ s.pop_back = .ok (nd.data, s') ∧
      Inv s' js ∧ s'.size = s.size - 1 ∧ s'.fresh = s.fresh ∧
      chainData s'.store js = chainData s.store js ∧
      (js ≠ [] → s'.head = s.head) := by
  obtain ⟨hseg, hhead, htail, hsize, hmem, hnodup⟩ := h
  obtain ⟨tn, hstt, htprev, htnext, hfront⟩ := dlseg_snoc.mp hseg
  have htail2 : s.tail = some t := by simp [htail]
  have hs0 : ¬s.size = 0 := by simp [hsize]
  have htnotmem : t ∉ js := fun hm =>
    (List.disjoint_of_nodup_append hnodup) hm (List.mem_cons_self t [])
  cases js with
  | nil =>
    have hhead2 : s.head = some t := by simpa using hhead
    refine ⟨tn, { s with head := none, tail := none, size := s.size - 1 }, hstt, ?_,
      ⟨dlseg_nil, rfl, rfl, by simp [hsize], by simp, by simp⟩, rfl, rfl, rfl, by simp⟩
    simp [pop_back, if_neg hs0, htail2, hstt, hhead2]
  | cons j0 js0 =>
    have hjsne : (j0 :: js0) ≠ ([] : List Nat) := by simp
    have hblast : (j0 :: js0).getLast? = some ((j0 :: js0).getLast hjsne) :=
      List.getLast?_eq_getLast _ hjsne
    set b := (j0 :: js0).getLast hjsne with hb
    have hdec : (j0 :: js0).dropLast ++ [b] = j0 :: js0 :=
      List.dropLast_append_getLast hjsne
    have htprev2 : tn.prev = some b := by
      rw [htprev]
      simp [backPtr, hblast]
    obtain ⟨bn, hstb, hbprev, hbnext, hfront2⟩ := dlseg_snoc.mp (hdec.symm ▸ hfront)
    have hbmem : b ∈ j0 :: js0 := List.getLast_mem hjsne
    have hj0t : j0 ≠ t := fun hh => htnotmem (hh ▸ List.mem_cons_self j0 js0)
    have hhead2 : s.head = some j0 := by simpa using hhead
    have hcond : ¬s.head = s.tail := by
      rw [hhead2, htail2]
      simp [hj0t]
    have hnodupjs : (j0 :: js0).Nodup := (List.nodup_append.mp hnodup).1
    have hbnotmem : b ∉ (j0 :: js0).dropLast := fun hm =>
      (List.disjoint_of_nodup_append (hdec.symm ▸ hnodupjs)) hm (List.mem_cons_self b [])
    refine ⟨tn, ⟨updStore s.store b { bn with next := none }, s.fresh, s.head,
      some b, s.size - 1⟩, hstt, ?_, ?_, rfl, rfl, ?_, fun _ => rfl⟩
    · simp [pop_back, if_neg hs0, htail2, hstt, hhead2, hj0t, htprev2, hstb]
    · refine ⟨?_, by simpa using hhead, by simp [hblast], ?_, ?_, hnodupjs⟩
      · rw [← hdec]
        refine dlseg_snoc.mpr ⟨{ bn with next := none }, by simp [updStore], ?_, rfl, ?_⟩
        · simpa using hbprev
        · exact dlseg_updStore hbnotmem hfront2
      · simp at hsize
        simp [hsize]
      · intro k hk
        exact hmem k (List.mem_append_left _ hk)
    · exact chainData_updStore_data (by simp [hstb]) _

/-- Unfolding `chainData` over a successful head lookup. -/
theorem chainData_cons_of_some {st : Nat → Option (ListNode T)} {a : Nat}
    {nd : ListNode T} (hst : st a = some nd) (l : List Nat) :
    chainData st (a :: l) = nd.data :: chainData st l := by
  simp [chainData, hst]

/-- `chainData` distributes over appended index lists. -/
theorem chainData_append (st : Nat → Option (ListNode T)) (l1 l2 : List Nat) :
    chainData st (l1 ++ l2) = chainData st l1 ++ chainData st l2 := by
  simp [chainData]

/-- The data along the chain after `push_front` is the new value consed in
front of the old data. -/
theorem chainData_push_front {s : StlList T} {is : List Nat} (v : T) (h : Inv s is) :
    chainData (s.push_front v).store (s.fresh :: is) = v :: chainData s.store is := by
  obtain ⟨hseg, hhead, htail, hsize, hmem, hnodup⟩ := h
  cases is with
  | nil =>
    have hs0 : s.size = 0 := by simpa using hsize
    simp [push_front, if_pos hs0, chainData, updStore]
  | cons i rest =>
    have hs0 : ¬s.size = 0 := by simp [hsize]
    obtain ⟨nd, hst, hprev, hnext, hrest⟩ := hseg
    have hhead2 : s.head = some i := by simpa using hhead
    have hifr : i < s.fresh := hmem i (List.mem_cons_self i rest)
    have hne : i ≠ s.fresh := Nat.ne_of_lt hifr
    have hnotmem : s.fresh ∉ i :: rest := fun hm => Nat.lt_irrefl s.fresh (hmem _ hm)
    simp only [push_front, if_neg hs0, hhead2, hst]
    have hsf : (updStore (updStore s.store s.fresh ⟨v, some i, none⟩) i
        { nd with prev := some s.fresh }) s.fresh = some ⟨v, some i, none⟩ := by
      simp [updStore, hne.symm]
    have hdata : ((updStore s.store s.fresh ⟨v, some i, none⟩) i).map
        (fun nd => nd.data) = some ({ nd with prev := some s.fresh } : ListNode T).data := by
      simp [updStore, hne, hst]
    rw [chainData_cons_of_some hsf, chainData_updStore_data hdata,
      chainData_updStore_notmem hnotmem]

/-- The data along the chain after `push_back` is the old data with the
new value appended. -/
theorem chainData_push_back {s : StlList T} {is : List Nat} (v : T) (h : Inv s is) :
    chainData (s.push_back v).store (is ++ [s.fresh]) = chainData s.store is ++ [v] := by
  obtain ⟨hseg, hhead, htail, hsize, hmem, hnodup⟩ := h
  rcases hisnil : is with _ | ⟨i0, rest0⟩
  · subst hisnil
    have hs0 : s.size = 0 := by simpa using hsize
    simp [push_back, if_pos hs0, chainData, updStore]
  · rw [← hisnil]
    have hisne : is ≠ [] := by simp [hisnil]
    have hs0 : ¬s.size = 0 := by simp [hsize, hisnil]
    have hblast : is.getLast? = some (is.getLast hisne) :=
      List.getLast?_eq_getLast is hisne
    set t := is.getLast hisne with ht
    have htail2 : s.tail = some t := by rw [htail, hblast]
    obtain ⟨tn, hstt, htprev, htnext, hfront⟩ :=
      dlseg_snoc.mp ((List.dropLast_append_getLast hisne).symm ▸ hseg)
    have htmem : t ∈ is := List.getLast_mem hisne
    have htne : t ≠ s.fresh := Nat.ne_of_lt (hmem t htmem)
    have hnotmem : s.fresh ∉ is := fun hm => Nat.lt_irrefl s.fresh (hmem _ hm)
    simp only [push_back, if_neg hs0, htail2, hstt]
    have hsf : (updStore (updStore s.store t { tn with next := some s.fresh }) s.fresh
        ⟨v, none, some t⟩) s.fresh = some ⟨v, none, some t⟩ := by
      simp [updStore]
    have hdata : (s.store t).map (fun nd => nd.data) =
        some ({ tn with next := some s.fresh } : ListNode T).data := by
      simp [hstt]
    rw [chainData_append, chainData_cons_of_some hsf,
      chainData_updStore_notmem hnotmem, chainData_updStore_data hdata]
    simp [chainData]

/-- `push_front` prepends the pushed value to the traversal. -/
theorem toSeq_push_front {s : StlList T} {is : List Nat} (v : T) (h : Inv s is) :
    (s.push_front v).toSeq = v :: s.toSeq := by
  rw [toSeq_eq_chainData (inv_push_front v h), chainData_push_front v h,
    toSeq_eq_chainData h]

/-- `push_back` appends the pushed value to the traversal. -/
theorem toSeq_push_back {s : StlList T} {is : List Nat} (v : T) (h : Inv s is) :
    (s.push_back v).toSeq = s.toSeq ++ [v] := by
  rw [toSeq_eq_chainData (inv_push_back v h), chainData_push_back v h,
    toSeq_eq_chainData h]

/-- `front` on a state whose chain is `i :: rest` returns node `i`'s
datum, which heads the traversal. -/
theorem front_ok {s : StlList T} {i : Nat} {rest : List Nat}
    (h : Inv s (i :: rest)) :
    ∃ nd, s.store i = some nd ∧ s.front = .ok nd.data ∧
      s.toSeq.head? = some nd.data := by
  obtain ⟨nd, hst, -, -, -⟩ := h.1
  have hhead2 : s.head = some i := by simpa using h.2.1
  have hs0 : ¬s.size = 0 := by simp [h.2.2.2.1]
  refine ⟨nd, hst, by simp [front, if_neg hs0, hhead2, hst], ?_⟩
  rw [toSeq_eq_chainData h, chainData_cons_of_some hst]
  simp

/-- `back` on a state whose chain is `js ++ [t]` returns node `t`'s
datum, which ends the traversal. -/
theorem back_ok {s : StlList T} {js : List Nat} {t : Nat}
    (h : Inv s (js ++ [t])) :
    ∃ nd, s.store t = some nd ∧ s.back = .ok nd.data ∧
      s.toSeq.getLast? = some nd.data := by
  obtain ⟨tn, hstt, -, -, -⟩ := dlseg_snoc.mp h.1
  have htail2 : s.tail = some t := by simp [h.2.2.1]
  have hs0 : ¬s.size = 0 := by simp [h.2.2.2.1]
  refine ⟨tn, hstt, by simp [back, if_neg hs0, htail2, hstt], ?_⟩
  rw [toSeq_eq_chainData h, chainData_append, chainData_cons_of_some hstt]
  simp [chainData]

/-- The last node of a full chain has a null `next`. -/
theorem dlseg_last {st : Nat → Option (ListNode T)} {is : List Nat} {p : Option Nat}
    {t : Nat} (hseg : Dlseg st p is none) (hlast : is.getLast? = some t) :
    ∃ nd, st t = some nd ∧ nd.next = none := by
  have hisne : is ≠ [] := by
    rintro rfl
    simp at hlast
  have hdec := List.dropLast_append_getLast hisne
  obtain ⟨nd, hst, -, hnext, -⟩ := dlseg_snoc.mp (hdec.symm ▸ hseg)
  have hteq : is.getLast hisne = t := by
    rw [List.getLast?_eq_getLast _ hisne] at hlast
    simpa using hlast
  exact ⟨nd, hteq ▸ hst, hnext⟩

/-- Along a chain, a node's forward link is matched by the target's
backward link. -/
theorem dlseg_adjacency {st : Nat → Option (ListNode T)} :
    ∀ {is : List Nat} {p : Option Nat}, Dlseg st p is none →
      ∀ a ∈ is, ∀ na b, st a = some na → na.next = some b →
        ∃ nb, st b = some nb ∧ nb.prev = some a := by
  intro is
  induction is with
  | nil => intro p _ a ha; simp at ha
  | cons i rest ih =>
    intro p hseg a ha na b hsta hnext
    obtain ⟨nd, hst, hprev, hndnext, hrest⟩ := hseg
    rcases List.mem_cons.mp ha with rfl | ha2
    · have hnd : nd = na := by
        rw [hst] at hsta
        exact Option.some_injective _ hsta
      subst hnd
      cases rest with
      | nil =>
        rw [hnext] at hndnext
        simp at hndnext
      | cons j rtl =>
        have hbj : b = j := by
          rw [hnext] at hndnext
          have := hndnext.symm
          simpa using this.symm
        subst hbj
        obtain ⟨ndj, hstj, hprevj, -, -⟩ := hrest
        exact ⟨ndj, hstj, hprevj⟩
    · exact ih hrest a ha2 na b hsta hnext

/-- The properties the specification lists as the representation
invariant of the sequence: the pointer-emptiness characterizations of
sizes 0 and 1, null `prev` at the head and null `next` at the tail,
`size` counting the nodes reachable from `head`, and the symmetry of
adjacent links. -/
def SpecInv (s : StlList T) : Prop :=
  (s.size = 0 ↔ s.head = none ∧ s.tail = none) ∧
  (s.size = 1 ↔ ∃ hd, s.head = some hd ∧ s.tail = some hd) ∧
  (∀ hd, s.head = some hd → ∃ nd, s.store hd = some nd ∧ nd.prev = none) ∧
  (∀ t, s.tail = some t → ∃ nd, s.store t = some nd ∧ nd.next = none) ∧
  s.reachIdx.length = s.size ∧
  (∀ a ∈ s.reachIdx, ∀ na b, s.store a = some na → na.next = some b →
    ∃ nb, s.store b = some nb ∧ nb.prev = some a)

/-- The representation invariant implies every property the spec lists. -/
theorem inv_specInv {s : StlList T} {is : List Nat} (h : Inv s is) : SpecInv s := by
  have hseg := h.1
  have hhead := h.2.1
  have htail := h.2.2.1
  have hsize := h.2.2.2.1
  have hnodup := h.2.2.2.2.2
  refine ⟨?_, ?_, ?_, ?_, ?_, ?_⟩
  · constructor
    · intro h0
      have hn : is = [] := List.eq_nil_of_length_eq_zero (hsize ▸ h0)
      subst hn
      exact ⟨by simpa using hhead, by simpa using htail⟩
    · rintro ⟨h1, h2⟩
      rw [hhead] at h1
      cases is with
      | nil => simpa using hsize
      | cons a more => simp at h1
  · constructor
    · intro h1
      obtain ⟨a, rfl⟩ : ∃ a, is = [a] := List.length_eq_one.mp (hsize ▸ h1)
      exact ⟨a, by simpa using hhead, by simpa using htail⟩
    · rintro ⟨hd, h1, h2⟩
      rw [hhead] at h1
      rw [htail] at h2
      cases is with
      | nil => simp at h1
      | cons a more =>
        have ha : a = hd := by simpa using h1
        subst ha
        cases more with
        | nil => simpa using hsize
        | cons m ms =>
          exfalso
          rw [List.getLast?_cons_cons] at h2
          have hne : (m :: ms) ≠ ([] : List Nat) := by simp
          rw [List.getLast?_eq_getLast _ hne] at h2
          have hga : (m :: ms).getLast hne = a := by simpa using h2
          exact (List.nodup_cons.mp hnodup).1 (hga ▸ List.getLast_mem hne)
  · intro hd hhd
    rw [hhead] at hhd
    cases is with
    | nil => simp at hhd
    | cons a more =>
      have ha : a = hd := by simpa using hhd
      subst ha
      obtain ⟨nd, hst, hprev, -, -⟩ := hseg
      exact ⟨nd, hst, hprev⟩
  · intro t htt
    rw [htail] at htt
    exact dlseg_last hseg htt
  · rw [reachIdx_eq h]
    exact hsize.symm
  · rw [reachIdx_eq h]
    exact dlseg_adjacency hseg

/-- Insertions succeed and grow `size` by exactly one. -/
theorem size_push_front {s : StlList T} {is : List Nat} (v : T) (h : Inv s is) :
    (s.push_front v).size = s.size + 1 := by
  rw [(inv_push_front v h).2.2.2.1, List.length_cons, ← h.2.2.2.1]

/-- Insertions succeed and grow `size` by exactly one. -/
theorem size_push_back {s : StlList T} {is : List Nat} (v : T) (h : Inv s is) :
    (s.push_back v).size = s.size + 1 := by
  rw [(inv_push_back v h).2.2.2.1, List.length_append, ← h.2.2.2.1]
  simp

/-- Folding `push_back` over an element list (the constructor's loop)
keeps the invariant, adds the elements' count to `size`, and appends the
elements to the traversal. -/
theorem inv_foldl_push_back :
    ∀ (l : List T) (s : StlList T) (is : List Nat), Inv s is →
      ∃ is', Inv (l.foldl (fun s v => s.push_back v) s) is' ∧
        (l.foldl (fun s v => s.push_back v) s).size = s.size + l.length ∧
        (l.foldl (fun s v => s.push_back v) s).toSeq = s.toSeq ++ l := by
  intro l
  induction l with
  | nil =>
    intro s is h
    exact ⟨is, h, by simp, by simp⟩
  | cons v vs ih =>
    intro s is h
    obtain ⟨is', hinv, hsz, hseq⟩ := ih (s.push_back v) (is ++ [s.fresh]) (inv_push_back v h)
    refine ⟨is', by simpa using hinv, ?_, ?_⟩
    · simp only [List.foldl_cons]
      rw [hsz, size_push_back v h, List.length_cons]
      omega
    · simp only [List.foldl_cons]
      rw [hseq, toSeq_push_back v h]
      simp

/-- The `List(initial_elements)` constructor establishes the invariant,
a `size` equal to the element count, and a traversal equal to the
initial sequence. -/
theorem inv_ofList (l : List T) :
    ∃ is, Inv (ofList l) is ∧ (ofList l).size = l.length ∧ (ofList l).toSeq = l := by
  obtain ⟨is, hinv, hsz, hseq⟩ := inv_foldl_push_back l empty [] inv_empty
  refine ⟨is, hinv, ?_, ?_⟩
  · have hz : (empty : StlList T).size = 0 := rfl
    simpa [ofList, hz] using hsz
  · have hz : (empty : StlList T).toSeq = [] := rfl
    simpa [ofList, hz] using hseq

end StlList

/-! ### Heap length facts -/

/-- The sift-down loop only overwrites positions, so it preserves the
heap's length. -/
theorem siftdownAux_length (lt : α → α → Bool) (sp : Nat) :
    ∀ (fuel : Nat) (heap : List α) (pos : Nat) (item : α),
      (siftdownAux lt sp fuel heap pos item).length = heap.length := by
  intro fuel
  induction fuel with
  | zero =>
    intro heap pos item
    simp [siftdownAux]
  | succ f ih =>
    intro heap pos item
    rw [siftdownAux]
    by_cases hlt : sp < pos
    · rw [if_pos hlt]
      cases hp : heap[(pos - 1) / 2]? with
      | none => simp [hp]
      | some parent =>
        by_cases hcmp : lt item parent
        · simp only [hp, if_pos hcmp, ih]
          simp
        · simp only [hp, if_neg hcmp]
          simp
    · rw [if_neg hlt]
      simp

/-- `_siftdown` preserves the heap's length. -/
theorem siftdown_length (lt : α → α → Bool) (heap : List α) (sp pos : Nat) :
    (siftdown lt heap sp pos).length = heap.length := by
  rw [siftdown]
  cases h : heap[pos]? with
  | none => rfl
  | some item => exact siftdownAux_length lt sp (pos + 1) heap pos item

/-- `heappush` grows the heap by exactly one element. -/
theorem heappush_length (lt : α → α → Bool) (heap : List α) (item : α) :
    (heappush lt heap item).length = heap.length + 1 := by
  rw [heappush, siftdown_length]
  simp

/-- CPython `heappop` always returns the current root `heap[0]` as the
popped value (read before the last element is moved up). -/
theorem heappop_head (lt : α → α → Bool) (x : α) (xs : List α) :
    ∃ rest, heappop lt (x :: xs) = some (x, rest) := by
  cases xs with
  | nil => exact ⟨[], rfl⟩
  | cons y ys =>
    have h1 : (x :: y :: ys).getLast? = some ((y :: ys).getLast (by simp)) := by
      rw [List.getLast?_cons_cons, List.getLast?_eq_getLast _ (by simp)]
    have h2 : (x :: y :: ys).dropLast = x :: (y :: ys).dropLast := by
      cases ys <;> rfl
    rw [heappop, h1, h2]
    exact ⟨_, rfl⟩

namespace PriorityQueue

/-- `push` never fails (it is a total function of the state) and grows
`size` by exactly one, in both the default and the custom-comparator
configuration. -/
theorem size_push (q : PriorityQueue) (v : PyVal) :
    (q.push v).size = q.size + 1 := by
  rw [push]
  by_cases hr : q.reverse
  · simp [hr, size, heappush_length]
  · simp [hr, size, heappush_length]

/-- The constructor inserts every initial element: the resulting `size`
is the initial list's length (construction never partially fails). -/
theorem size_make (l : List PyVal) (c : Option (PyVal → PyVal → Bool)) :
    (make l c).size = l.length := by
  suffices hgen : ∀ (l : List PyVal) (q : PriorityQueue),
      (l.foldl (fun q v => q.push v) q).size = q.size + l.length by
    have := hgen l ⟨[], c.isNone, c⟩
    simpa [make, size] using this
  intro l
  induction l with
  | nil =>
    intro q
    simp
  | cons v vs ih =>
    intro q
    simp only [List.foldl_cons]
    rw [ih, size_push]
    simp only [List.length_cons]
    omega

/-- `pop` on a non-empty queue succeeds and returns exactly the value
that `top` reports (both read the heap root and apply the same
un-negation), while `top` — a pure read in the code — returns no new
state at all. -/
theorem pop_top_agree (q : PriorityQueue) (hne : q.data ≠ []) :
    ∃ v q', q.pop = .ok (v, q') ∧ q.top = .ok v := by
  obtain ⟨x, xs, hd⟩ := List.exists_cons_of_ne_nil hne
  obtain ⟨rest, hpop⟩ := heappop_head pyLt x xs
  refine ⟨q.unstore x, { q with data := rest }, ?_, ?_⟩
  · rw [pop, hd]
    simp [hpop]
  · rw [top, hd]

end PriorityQueue

/-! ## The reference double-ended queue (for the refinement claim)

Modelled from the spec: "the structure behaves identically to a reference
double-ended queue" — a plain Lean list with insertion at either end and
value-returning removal at either end. -/

/-- The four deque operations interleaved by the refinement claim. -/
inductive DeqOp (T : Type u) : Type u where
  | pushF : T → DeqOp T
  | pushB : T → DeqOp T
  | popF : DeqOp T
  | popB : DeqOp T

namespace StlList

/-- One step of the linked sequence under a deque operation: the optional
returned value and the next state.  A failed pop raises in Python and
leaves the container untouched, so it returns no value and keeps the
state. -/
def stlStep (s : StlList T) : DeqOp T → Option T × StlList T
  | .pushF v => (none, s.push_front v)
  | .pushB v => (none, s.push_back v)
  | .popF =>
    match s.pop_front with
    | .ok vs => (some vs.1, vs.2)
    | .error _ => (none, s)
  | .popB =>
    match s.pop_back with
    | .ok vs => (some vs.1, vs.2)
    | .error _ => (none, s)

/-- Run a sequence of operations on the linked sequence, recording each
step's returned value and the size after the step. -/
def stlRun (s : StlList T) : List (DeqOp T) → List (Option T × Nat)
  | [] => []
  | op :: ops => ((stlStep s op).1, (stlStep s op).2.size) :: stlRun (stlStep s op).2 ops

end StlList

/-- Modelled from the spec: one step of the reference double-ended queue. -/
def refStep (l : List T) : DeqOp T → Option T × List T
  | .pushF v => (none, v :: l)
  | .pushB v => (none, l ++ [v])
  | .popF =>
    match l with
    | [] => (none, [])
    | x :: xs => (some x, xs)
  | .popB =>
    match l.getLast? with
    | none => (none, [])
    | some x => (some x, l.dropLast)

/-- Run a sequence of operations on the reference deque, recording each
step's returned value and the length after the step. -/
def refRun (l : List T) : List (DeqOp T) → List (Option T × Nat)
  | [] => []
  | op :: ops => ((refStep l op).1, (refStep l op).2.length) :: refRun (refStep l op).2 ops

namespace StlList

/-- One-step simulation: under the invariant, a linked-sequence step
returns the same value as the reference deque on the abstraction
(`toSeq`), and the successor state abstracts to the reference successor
and satisfies the invariant again. -/
theorem stlStep_sim {s : StlList T} {is : List Nat} (h : Inv s is) (op : DeqOp T) :
    (stlStep s op).1 = (refStep s.toSeq op).1 ∧
    (stlStep s op).2.toSeq = (refStep s.toSeq op).2 ∧
    ∃ is', Inv (stlStep s op).2 is' := by
  cases op with
  | pushF v => exact ⟨rfl, toSeq_push_front v h, _, inv_push_front v h⟩
  | pushB v => exact ⟨rfl, toSeq_push_back v h, _, inv_push_back v h⟩
  | popF =>
    cases is with
    | nil =>
      have hs0 : s.size = 0 := by simpa using h.2.2.2.1
      have hseq : s.toSeq = [] := by
        rw [toSeq_eq_chainData h]
        rfl
      have hpop : s.pop_front = .error .emptyContainer := by
        rw [pop_front, if_pos hs0]
      refine ⟨?_, ?_, [], ?_⟩
      · simp [stlStep, hpop, hseq, refStep]
      · simp [stlStep, hpop, hseq, refStep]
      · simpa [stlStep, hpop] using h
    | cons i rest =>
      obtain ⟨nd, s', hst, hpop, hinv, -, -, hchain, -⟩ := pop_front_ok h
      have hseq : s.toSeq = nd.data :: chainData s.store rest := by
        rw [toSeq_eq_chainData h, chainData_cons_of_some hst]
      have hseq' : s'.toSeq = chainData s.store rest := by
        rw [toSeq_eq_chainData hinv, hchain]
      refine ⟨?_, ?_, rest, ?_⟩
      · simp [stlStep, hpop, hseq, refStep]
      · simp [stlStep, hpop, hseq, refStep, hseq']
      · simpa [stlStep, hpop] using hinv
  | popB =>
    rcases List.eq_nil_or_concat is with rfl | ⟨js, t, hc⟩
    · have hs0 : s.size = 0 := by simpa using h.2.2.2.1
      have hseq : s.toSeq = [] := by
        rw [toSeq_eq_chainData h]
        rfl
      have hpop : s.pop_back = .error .emptyContainer := by
        rw [pop_back, if_pos hs0]
      refine ⟨?_, ?_, [], ?_⟩
      · simp [stlStep, hpop, hseq, refStep]
      · simp [stlStep, hpop, hseq, refStep]
      · simpa [stlStep, hpop] using h
    · rw [List.concat_eq_append] at hc
      subst hc
      obtain ⟨nd, s', hst, hpop, hinv, -, -, hchain, -⟩ := pop_back_ok h
      have hseq : s.toSeq = chainData s.store js ++ [nd.data] := by
        rw [toSeq_eq_chainData h, chainData_append, chainData_cons_of_some hst]
        rfl
      have hseq' : s'.toSeq = chainData s.store js := by
        rw [toSeq_eq_chainData hinv, hchain]
      have hlast : s.toSeq.getLast? = some nd.data := by
        rw [hseq]
        simp
      have hdrop : s.toSeq.dropLast = chainData s.store js := by
        rw [hseq]
        simp
      refine ⟨?_, ?_, js, ?_⟩
      · simp [stlStep, hpop, refStep, hlast]
      · simp [stlStep, hpop, refStep, hlast, hseq', hdrop]
      · simpa [stlStep, hpop] using hinv

/-- Whole-run simulation: from any valid state, a linked sequence and the
reference deque started at its abstraction produce identical traces of
returned values and sizes, for every operation sequence. -/
theorem stlRun_eq_refRun :
    ∀ (ops : List (DeqOp T)) (s : StlList T) (is : List Nat), Inv s is →
      stlRun s ops = refRun s.toSeq ops := by
  intro ops
  induction ops with
  | nil =>
    intro s is h
    rfl
  | cons op rest ih =>
    intro s is h
    obtain ⟨hout, hseq, is', hinv⟩ := stlStep_sim h op
    have hsz : (stlStep s op).2.size = (refStep s.toSeq op).2.length := by
      rw [← hseq]
      exact (toSeq_length hinv).symm
    have htl := ih (stlStep s op).2 is' hinv
    simp only [stlRun, refRun]
    rw [hout, hsz, htl, hseq]

end StlList

/-! ## The claims -/

/-- **C1** — refuted (bug in the code).  The claim: a default-ordered
`PriorityQueue` pops pushed elements of one type (numeric or string) in
non-increasing order, "numerically or lexicographically greater wins".
The numeric half behaves as claimed (first conjunct: the spec's own
scenario `push(3), push(1), push(4), push(1)` pops `4, 3, 1, 1`).  For
strings the code stores `(value, -1)` tuples in an un-negated min-heap,
so it pops the lexicographically *smallest* first and returns the raw
tuples instead of the strings (second conjunct: pushing `"a"` then `"b"`
pops `("a", -1)` then `("b", -1)` rather than `"b"` then `"a"`),
contradicting the class's own "max-heap, larger values have higher
priority" documentation. -/
theorem claim_C1_default_string_order_bug :
    PriorityQueue.popList 4 (PriorityQueue.make [.int 3, .int 1, .int 4, .int 1] none) =
      [.int 4, .int 3, .int 1, .int 1] ∧
    PriorityQueue.popList 2 (PriorityQueue.make [.str [97], .str [98]] none) =
      [.pair (.str [97]) (.int (-1)), .pair (.str [98]) (.int (-1))] ∧
    PriorityQueue.popList 2 (PriorityQueue.make [.str [97], .str [98]] none) ≠
      [.str [98], .str [97]] := by
  refine ⟨by decide, by decide, by decide⟩

/-- **C2** — refuted (bug in the code).  The claim: with a custom
comparator, after pushing two elements `a`, `b` with `compare a b` true
and `compare b a` false (here `compare x y := y < x`, so `compare 2 1` is
true), `pop` returns `a` (= 2) before `b` (= 1), in either insertion
order.  The code stores the comparator but never calls it — `push` and
`pop` use the raw `heapq` min-heap — so both insertion orders pop `1`
first, contradicting the constructor's documentation of `compare`. -/
theorem claim_C2_comparator_ignored_bug :
    (fun a b => pyLt b a) (PyVal.int 2) (PyVal.int 1) = true ∧
    (fun a b => pyLt b a) (PyVal.int 1) (PyVal.int 2) = false ∧
    PriorityQueue.popList 2
      (PriorityQueue.make [.int 1, .int 2] (some fun a b => pyLt b a)) =
      [.int 1, .int 2] ∧
    PriorityQueue.popList 2
      (PriorityQueue.make [.int 2, .int 1] (some fun a b => pyLt b a)) =
      [.int 1, .int 2] := by
  refine ⟨by decide, by decide, by decide, by decide⟩

/-- **C3** — refuted (bug in the code).  The claim: pushing `n` elements
of any type then popping `n` times returns the original values as a
multiset.  For a single pushed string `"a"` the pop returns the internal
encoding `("a", -1)` — a tuple, not the pushed value — so the returned
multiset is not the pushed one. -/
theorem claim_C3_string_roundtrip_bug :
    PriorityQueue.popList 1 (PriorityQueue.make [.str [97]] none) =
      [.pair (.str [97]) (.int (-1))] ∧
    PriorityQueue.popList 1 (PriorityQueue.make [.str [97]] none) ≠
      [.str [97]] := by
  refine ⟨by decide, by decide⟩

/-- **C4** — confirmed.  On any empty container the four linked-sequence
accessors/removers and the priority queue's `pop` and `top` all fail
with the `EmptyContainer` error.  Each of them raises before touching
any attribute (in the embedding: returns an error and no successor
state), so the container is left exactly as it was, with `size()` still
0. -/
theorem claim_C4_empty_ops_fail {T : Type u} (s : StlList T) (q : PriorityQueue)
    (hs : s.size = 0) (hq : q.size = 0) :
    s.pop_front = .error .emptyContainer ∧
    s.pop_back = .error .emptyContainer ∧
    s.front = .error .emptyContainer ∧
    s.back = .error .emptyContainer ∧
    q.pop = .error .emptyContainer ∧
    q.top = .error .emptyContainer ∧
    s.size = 0 ∧ q.size = 0 := by
  have hqd : q.data = [] := List.length_eq_zero.mp hq
  refine ⟨?_, ?_, ?_, ?_, ?_, ?_, hs, hq⟩
  · rw [StlList.pop_front, if_pos hs]
  · rw [StlList.pop_back, if_pos hs]
  · rw [StlList.front, if_pos hs]
  · rw [StlList.back, if_pos hs]
  · rw [PriorityQueue.pop]
    simp [hqd]
  · rw [PriorityQueue.top, hqd]

/-- Witness for C4 at the freshly constructed empty containers. -/
theorem claim_C4_witness :
    (StlList.empty : StlList Int).size = 0 ∧
    (PriorityQueue.mk [] true none).size = 0 ∧
    ((StlList.empty : StlList Int).pop_front = .error .emptyContainer ∧
      (StlList.empty : StlList Int).pop_back = .error .emptyContainer ∧
      (StlList.empty : StlList Int).front = .error .emptyContainer ∧
      (StlList.empty : StlList Int).back = .error .emptyContainer ∧
      (PriorityQueue.mk [] true none).pop = .error .emptyContainer ∧
      (PriorityQueue.mk [] true none).top = .error .emptyContainer ∧
      (StlList.empty : StlList Int).size = 0 ∧
      (PriorityQueue.mk [] true none).size = 0) :=
  ⟨rfl, rfl, claim_C4_empty_ops_fail StlList.empty (PriorityQueue.mk [] true none) rfl rfl⟩

/-- **C5** — confirmed.  Construction (empty or from an initial
sequence), both pushes, both pops and `clear` all preserve the
representation invariant `StlList.Inv` (a chain of distinct live nodes
with symmetric links, head/tail at its ends and `size` its length), and
the invariant entails every property the claim lists — packaged as
`StlList.SpecInv`: `size = 0` iff both pointers are empty, `size = 1`
iff head and tail are the same node, null `prev` at the head and null
`next` at the tail, `size` counts the nodes reachable from `head` along
`next`, and every forward link is matched by the target's backward
link. -/
theorem claim_C5_invariant_preserved {T : Type u} :
    StlList.Inv (StlList.empty : StlList T) [] ∧
    (∀ l : List T, ∃ is, StlList.Inv (StlList.ofList l) is) ∧
    (∀ (s : StlList T) (is : List Nat) (v : T), StlList.Inv s is →
      StlList.Inv (s.push_front v) (s.fresh :: is)) ∧
    (∀ (s : StlList T) (is : List Nat) (v : T), StlList.Inv s is →
      StlList.Inv (s.push_back v) (is ++ [s.fresh])) ∧
    (∀ (s : StlList T) (i : Nat) (rest : List Nat), StlList.Inv s (i :: rest) →
      ∃ v s', s.pop_front = .ok (v, s') ∧ StlList.Inv s' rest) ∧
    (∀ (s : StlList T) (js : List Nat) (t : Nat), StlList.Inv s (js ++ [t]) →
      ∃ v s', s.pop_back = .ok (v, s') ∧ StlList.Inv s' js) ∧
    (∀ s : StlList T, StlList.Inv s.clear []) ∧
    (∀ (s : StlList T) (is : List Nat), StlList.Inv s is → StlList.SpecInv s) := by
  refine ⟨StlList.inv_empty, ?_, ?_, ?_, ?_, ?_, StlList.inv_clear, ?_⟩
  · intro l
    obtain ⟨is, hinv, -, -⟩ := StlList.inv_ofList l
    exact ⟨is, hinv⟩
  · intro s is v h
    exact StlList.inv_push_front v h
  · intro s is v h
    exact StlList.inv_push_back v h
  · intro s i rest h
    obtain ⟨nd, s', -, hpop, hinv, -, -, -, -⟩ := StlList.pop_front_ok h
    exact ⟨nd.data, s', hpop, hinv⟩
  · intro s js t h
    obtain ⟨nd, s', -, hpop, hinv, -, -, -, -⟩ := StlList.pop_back_ok h
    exact ⟨nd.data, s', hpop, hinv⟩
  · intro s is h
    exact StlList.inv_specInv h

/-- Witness for C5: a concrete push preserves the invariant, and the
spec-level properties hold for it. -/
theorem claim_C5_witness :
    StlList.Inv ((StlList.empty : StlList Int).push_front 7) [0] ∧
    StlList.SpecInv ((StlList.empty : StlList Int).push_front 7) := by
  have h0 : StlList.Inv (StlList.empty : StlList Int) [] :=
    ⟨trivial, rfl, rfl, rfl, by simp, by simp⟩
  have h1 := claim_C5_invariant_preserved.2.2.1 (StlList.empty : StlList Int) [] 7 h0
  exact ⟨h1, claim_C5_invariant_preserved.2.2.2.2.2.2.2 _ _ h1⟩

/-- **C6** — confirmed.  For every sequence of push/pop operations at
either end, the linked sequence produces exactly the values and sizes of
the reference double-ended queue started at its abstraction (first
conjunct), and the claim's concrete scenario holds: after
`push_back(10)`, `push_back(20)`, `push_front(5)` the front is 5, the
back is 20 and the size is 3, and `pop_front()` then returns 5 leaving
size 2. -/
theorem claim_C6_deque_refinement {T : Type u} :
    (∀ (ops : List (DeqOp T)) (s : StlList T) (is : List Nat), StlList.Inv s is →
      StlList.stlRun s ops = refRun s.toSeq ops) ∧
    (((StlList.empty.push_back (10 : Int)).push_back 20).push_front 5).front = .ok 5 ∧
    (((StlList.empty.push_back (10 : Int)).push_back 20).push_front 5).back = .ok 20 ∧
    (((StlList.empty.push_back (10 : Int)).push_back 20).push_front 5).size = 3 ∧
    ((((StlList.empty.push_back (10 : Int)).push_back 20).push_front 5).pop_front.toOption.map
      (fun p => (p.1, p.2.size))) = some (5, 2) := by
  exact ⟨StlList.stlRun_eq_refRun, rfl, rfl, rfl, rfl⟩

/-- Witness for C6: the trace equality instantiated on a concrete state
and operation sequence. -/
theorem claim_C6_witness :
    StlList.stlRun ((StlList.empty : StlList Int).push_back 10)
      [DeqOp.pushF 5, DeqOp.popB, DeqOp.popB] =
    refRun ((StlList.empty : StlList Int).push_back 10).toSeq
      [DeqOp.pushF 5, DeqOp.popB, DeqOp.popB] := by
  have h0 : StlList.Inv (StlList.empty : StlList Int) [] :=
    ⟨trivial, rfl, rfl, rfl, by simp, by simp⟩
  exact claim_C6_deque_refinement.1 [DeqOp.pushF 5, DeqOp.popB, DeqOp.popB]
    ((StlList.empty : StlList Int).push_back 10) ([] ++ [0])
    (StlList.inv_push_back 10 h0)

/-- **C7** — confirmed.  The insertion operations are total (they raise
no error: in the embedding they are plain functions into the state type,
not `Except`-valued like the pops) and each grows `size()` by exactly
one; consequently construction from an initial element list inserts all
of its elements and cannot partially fail. -/
theorem claim_C7_push_never_fails {T : Type u} :
    (∀ (s : StlList T) (is : List Nat) (v : T), StlList.Inv s is →
      (s.push_front v).size = s.size + 1 ∧ (s.push_back v).size = s.size + 1) ∧
    (∀ (q : PriorityQueue) (v : PyVal), (q.push v).size = q.size + 1) ∧
    (∀ l : List T, (StlList.ofList l).size = l.length) ∧
    (∀ (l : List PyVal) (c : Option (PyVal → PyVal → Bool)),
      (PriorityQueue.make l c).size = l.length) := by
  refine ⟨?_, PriorityQueue.size_push, ?_, PriorityQueue.size_make⟩
  · intro s is v h
    exact ⟨StlList.size_push_front v h, StlList.size_push_back v h⟩
  · intro l
    obtain ⟨is, -, hsz, -⟩ := StlList.inv_ofList l
    exact hsz

/-- Witness for C7 at a concrete state. -/
theorem claim_C7_witness :
    ((StlList.empty : StlList Int).push_front 3).size = (StlList.empty : StlList Int).size + 1 ∧
    ((StlList.empty : StlList Int).push_back 3).size = (StlList.empty : StlList Int).size + 1 ∧
    ((PriorityQueue.mk [] true none).push (.int 3)).size = (PriorityQueue.mk [] true none).size + 1 := by
  have h0 : StlList.Inv (StlList.empty : StlList Int) [] :=
    ⟨trivial, rfl, rfl, rfl, by simp, by simp⟩
  obtain ⟨h1, h2⟩ := claim_C7_push_never_fails.1 (StlList.empty : StlList Int) [] 3 h0
  exact ⟨h1, h2, (@claim_C7_push_never_fails Int).2.1 (PriorityQueue.mk [] true none) (.int 3)⟩

/-- **C8** — confirmed.  The forward traversal (`__iter__`, embedded as
`toSeq`: walking `next` links from `head` until empty) yields exactly
the data of the chain of nodes present at traversal start, in
front-to-back order, and produces `size()` values in total. -/
theorem claim_C8_traversal {T : Type u} (s : StlList T) (is : List Nat)
    (h : StlList.Inv s is) :
    s.toSeq = StlList.chainData s.store is ∧ s.toSeq.length = s.size :=
  ⟨StlList.toSeq_eq_chainData h, StlList.toSeq_length h⟩

/-- Witness for C8 at a concrete two-element state. -/
theorem claim_C8_witness :
    ((StlList.empty : StlList Int).push_back 4).toSeq =
      StlList.chainData ((StlList.empty : StlList Int).push_back 4).store ([] ++ [0]) ∧
    ((StlList.empty : StlList Int).push_back 4).toSeq.length =
      ((StlList.empty : StlList Int).push_back 4).size := by
  have h0 : StlList.Inv (StlList.empty : StlList Int) [] :=
    ⟨trivial, rfl, rfl, rfl, by simp, by simp⟩
  exact claim_C8_traversal ((StlList.empty : StlList Int).push_back 4) ([] ++ [0])
    (StlList.inv_push_back 4 h0)

/-- **C9** — confirmed.  On a non-empty priority queue, `pop()` succeeds
and returns exactly the value that `top()` reports: both read the heap
root `_data[0]` (`heappop` returns it before moving the last element up)
and apply the same numeric un-negation.  `top` itself is a pure read —
in the embedding a function returning only the value, with no successor
state — so the storage and `size()` are untouched by it. -/
theorem claim_C9_top_pop_agree (q : PriorityQueue) (hne : q.size ≠ 0) :
    ∃ v q', q.pop = .ok (v, q') ∧ q.top = .ok v :=
  PriorityQueue.pop_top_agree q
    (fun he => hne (by simp [PriorityQueue.size, he]))

/-- Witness for C9 on a concrete two-element default queue. -/
theorem claim_C9_witness :
    (PriorityQueue.make [.int 3, .int 9] none).size ≠ 0 ∧
    ∃ v q', (PriorityQueue.make [.int 3, .int 9] none).pop = .ok (v, q') ∧
      (PriorityQueue.make [.int 3, .int 9] none).top = .ok v :=
  ⟨by decide, claim_C9_top_pop_agree (PriorityQueue.make [.int 3, .int 9] none) (by decide)⟩

/-- **C10** — confirmed.  On a sequence with at least two elements,
`pop_front` removes exactly the first element: it returns the head of
the traversal, the remaining traversal is the old one with its first
element dropped, and `back()` is unchanged; symmetrically `pop_back`
returns the last value, leaves the traversal's `dropLast`, and keeps
`front()` unchanged. -/
theorem claim_C10_pop_frame {T : Type u} (s : StlList T) (is : List Nat)
    (h : StlList.Inv s is) (h2 : 2 ≤ s.size) :
    (∃ v s', s.pop_front = .ok (v, s') ∧ s.toSeq.head? = some v ∧
      s'.toSeq = s.toSeq.tail ∧ s'.back = s.back) ∧
    (∃ v s', s.pop_back = .ok (v, s') ∧ s.toSeq.getLast? = some v ∧
      s'.toSeq = s.toSeq.dropLast ∧ s'.front = s.front) := by
  have hlen : 2 ≤ is.length := h.2.2.2.1 ▸ h2
  obtain ⟨i, rest, rfl⟩ : ∃ i rest, is = i :: rest := by
    cases is with
    | nil => simp at hlen
    | cons a l => exact ⟨a, l, rfl⟩
  obtain ⟨j, rtl, rfl⟩ : ∃ j rtl, rest = j :: rtl := by
    cases rest with
    | nil => simp at hlen
    | cons a l => exact ⟨a, l, rfl⟩
  obtain ⟨js2, t, hc⟩ : ∃ js2 t, (j :: rtl) = js2 ++ [t] := by
    rcases List.eq_nil_or_concat (j :: rtl) with h0 | ⟨js2, t, hc⟩
    · simp at h0
    · exact ⟨js2, t, by rw [hc, List.concat_eq_append]⟩
  have hinvs : StlList.Inv s ((i :: js2) ++ [t]) := by
    rw [List.cons_append, ← hc]
    exact h
  obtain ⟨nd0, hst0, -, -, hrest0⟩ := h.1
  have hclen : (StlList.chainData s.store (j :: rtl)).length = (j :: rtl).length :=
    StlList.chainData_length hrest0
  have hcne : StlList.chainData s.store (j :: rtl) ≠ [] := by
    intro he
    rw [he] at hclen
    simp at hclen
  constructor
  · obtain ⟨nd, s', hst, hpop, hinv, -, -, hchain, -⟩ := StlList.pop_front_ok h
    have hseqS : s.toSeq = nd.data :: StlList.chainData s.store (j :: rtl) := by
      rw [StlList.toSeq_eq_chainData h, StlList.chainData_cons_of_some hst]
    have hseqS' : s'.toSeq = StlList.chainData s.store (j :: rtl) := by
      rw [StlList.toSeq_eq_chainData hinv, hchain]
    refine ⟨nd.data, s', hpop, by rw [hseqS]; rfl, by rw [hseqS, hseqS']; rfl, ?_⟩
    · have hinv2 : StlList.Inv s' (js2 ++ [t]) := hc ▸ hinv
      obtain ⟨ndt', hstt', hback', hlast'⟩ := StlList.back_ok hinv2
      obtain ⟨ndt, hstt, hback, hlast⟩ := StlList.back_ok hinvs
      have heq : s'.toSeq.getLast? = s.toSeq.getLast? := by
        rw [hseqS, hseqS']
        cases hcc : StlList.chainData s.store (j :: rtl) with
        | nil => exact absurd hcc hcne
        | cons c cs => rw [List.getLast?_cons_cons]
      have hdata : ndt'.data = ndt.data := by
        have hx : s.toSeq.getLast? = some ndt'.data := heq ▸ hlast'
        rw [hlast] at hx
        exact (Option.some_injective _ hx).symm
      rw [hback, hback', hdata]
  · obtain ⟨nd2, s'', hst2, hpop2, hinv2, -, -, hchain2, -⟩ := StlList.pop_back_ok hinvs
    have hfrontlen : (StlList.chainData s.store (i :: js2)).length = (i :: js2).length := by
      obtain ⟨ndx, -, -, -, hfrontseg⟩ := StlList.dlseg_snoc.mp hinvs.1
      exact StlList.chainData_length hfrontseg
    have hfne : StlList.chainData s.store (i :: js2) ≠ [] := by
      intro he
      rw [he] at hfrontlen
      simp at hfrontlen
    have hseqS : s.toSeq = StlList.chainData s.store (i :: js2) ++ [nd2.data] := by
      rw [StlList.toSeq_eq_chainData hinvs, StlList.chainData_append,
        StlList.chainData_cons_of_some hst2]
      rfl
    have hseqS'' : s''.toSeq = StlList.chainData s.store (i :: js2) := by
      rw [StlList.toSeq_eq_chainData hinv2, hchain2]
    refine ⟨nd2.data, s'', hpop2, by rw [hseqS]; simp, by rw [hseqS, hseqS'']; simp, ?_⟩
    · obtain ⟨ndi'', hsti'', hfront'', hhead''⟩ := StlList.front_ok hinv2
      obtain ⟨ndi, hsti, hfront, hhead⟩ := StlList.front_ok h
      have heq : s''.toSeq.head? = s.toSeq.head? := by
        rw [hseqS, hseqS'']
        cases hcc : StlList.chainData s.store (i :: js2) with
        | nil => exact absurd hcc hfne
        | cons c cs => rfl
      have hdata : ndi''.data = ndi.data := by
        have hx : s.toSeq.head? = some ndi''.data := heq ▸ hhead''
        rw [hhead] at hx
        exact (Option.some_injective _ hx).symm
      rw [hfront, hfront'', hdata]

/-- Witness for C10 on a concrete two-element sequence. -/
theorem claim_C10_witness :
    2 ≤ (((StlList.empty : StlList Int).push_back 1).push_back 2).size ∧
    ((∃ v s', (((StlList.empty : StlList Int).push_back 1).push_back 2).pop_front = .ok (v, s') ∧
        (((StlList.empty : StlList Int).push_back 1).push_back 2).toSeq.head? = some v ∧
        s'.toSeq = (((StlList.empty : StlList Int).push_back 1).push_back 2).toSeq.tail ∧
        s'.back = (((StlList.empty : StlList Int).push_back 1).push_back 2).back) ∧
      (∃ v s', (((StlList.empty : StlList Int).push_back 1).push_back 2).pop_back = .ok (v, s') ∧
        (((StlList.empty : StlList Int).push_back 1).push_back 2).toSeq.getLast? = some v ∧
        s'.toSeq = (((StlList.empty : StlList Int).push_back 1).push_back 2).toSeq.dropLast ∧
        s'.front = (((StlList.empty : StlList Int).push_back 1).push_back 2).front)) := by
  have h0 : StlList.Inv (StlList.empty : StlList Int) [] :=
    ⟨trivial, rfl, rfl, rfl, by simp, by simp⟩
  have h1 := StlList.inv_push_back 1 h0
  have h2 := StlList.inv_push_back 2 h1
  exact ⟨by decide, claim_C10_pop_frame _ (([] ++ [0]) ++ [1]) h2 (by decide)⟩

end STLSim